import Mathlib

/-!
Verification of the cooltools dot-calling core (dotfinder.py) against its
specification.  The Python functions are shallowly embedded in Lean:

* machine floats that can hold NaN/Inf are modelled by `FVal := Option ℚ`,
  where `none` stands for any non-finite value (NaN or ±Inf); arithmetic on
  `FVal` propagates non-finiteness the way IEEE arithmetic keeps a NaN/Inf
  value non-finite in the expressions used by the code (no finite value is
  ever produced from a non-finite operand in those expressions, and
  division by zero is non-finite);
* numpy arrays become Lean functions / lists; pandas DataFrames become
  lists of records or association lists of columns;
* `scipy.ndimage.convolve(input, kernel, mode =constant, cval, origin=0)`
  on an odd `(2r+1) x (2r+1)` kernel becomes an explicit double sum
  `out[i,j] = sum_{u,v in [-r,r]} kernel[u,v] * padded_input[i-u, j-v]`
  (the kernel-flipping convolution convention of `scipy.ndimage.convolve`),
  with `padded_input` equal to `cval` outside the tile;
* generator functions become functions returning lists;
* exceptions (assert / KeyError) become `Except`/`Option` results.
-/

/-! ## Basic numeric model -/

/-- Model of an IEEE double restricted to the uses in dotfinder.py:
`some q` is the finite value `q`, `none` is any non-finite value
(NaN or ±infinity). -/
abbrev FVal := Option ℚ

/-- Multiplication of possibly non-finite values.  A non-finite operand
yields a non-finite result (in IEEE, NaN*x = NaN and Inf*x is Inf or NaN). -/
def fmul : FVal → FVal → FVal
  | some a, some b => some (a * b)
  | _, _ => none

/-- Division of possibly non-finite values.  Division by zero is non-finite
(±Inf or NaN), and a non-finite operand yields a non-finite result for the
operand shapes occurring in dotfinder.py (NaN/x, x/NaN, Inf*ratio etc.). -/
def fdiv : FVal → FVal → FVal
  | some a, some b => if b = 0 then none else some (a / b)
  | _, _ => none

/-- Division of two finite values, non-finite when the denominator is 0. -/
def qdiv (a b : ℚ) : FVal :=
  if b = 0 then none else some (a / b)

/-- A half-open interval `(lo, hi]` on the extended rationals, as used by the
lambda-chunking bin edges (`ledges`): `none` endpoints are -Inf / +Inf.
This models a `pandas.Interval` with closed = right. -/
abbrev LamBin := Option ℚ × Option ℚ

/-- Membership in a lambda bin, for `(lo, hi]`: `lo < x ≤ hi` with infinite ends. -/
def memInterval (iv : LamBin) (x : ℚ) : Bool :=
  (match iv.1 with
   | none => true
   | some lo => decide (lo < x)) &&
  (match iv.2 with
   | none => true
   | some hi => decide (x ≤ hi))

/-- Lookup of a value in an interval-indexed series (`Series.loc` on a
`pandas.IntervalIndex`): the value attached to the first interval containing
`x`, or `none` (a KeyError) when no interval contains it. -/
def ilookup (s : List (LamBin × ℚ)) (x : ℚ) : Option ℚ :=
  (s.find? (fun p => memInterval p.1 x)).map (fun p => p.2)

/-! ## Tiling generators (dotfinder.py lines 184-254 and 257-361) -/

/-- `diagonal_matrix_tiling(start, stop, bandwidth, edge)` from dotfinder.py:
`size = stop - start`, `tiles = size // bandwidth + bool(size % bandwidth)`,
and for `t in range(1, tiles)` it yields
`(max(0, bandwidth*(t-1) - edge) + start, min(size, bandwidth*(t+1) + edge) + start)`.
Arguments are natural numbers (bin indices are nonnegative and the claims
assume `start ≤ stop`, `bandwidth > 0`, `edge ≥ 0`); truncated subtraction
on ℕ coincides with Python's `max(0, ...)` guard.
`List.range (tiles - 1)` with `t = tp + 1` enumerates `range(1, tiles)`. -/
def diagonal_matrix_tiling (start stop bandwidth edge : ℕ) : List (ℕ × ℕ) :=
  let size := stop - start
  let tiles := size / bandwidth + (if size % bandwidth = 0 then 0 else 1)
  (List.range (tiles - 1)).map (fun tp =>
    let t := tp + 1
    let lw := bandwidth * (t - 1) - edge
    let rw := min size (bandwidth * (t + 1) + edge)
    (lw + start, rw + start))

/-- `square_matrix_tiling(start, stop, step, edge, square)` from dotfinder.py:
a `tiles × tiles` grid of spans `(max(0, step*t - edge), min(size, step*(t+1) + edge))`;
with `square=True`, whenever `rw >= size` the near boundary slides inward to
`size - step - edge`.  Coordinates are integers as in Python
(`size - step - edge` may be negative). -/
def square_matrix_tiling (start stop step edge : ℤ) (square : Bool) :
    List ((ℤ × ℤ) × (ℤ × ℤ)) :=
  let size := stop - start
  let tiles := (size / step + (if size % step = 0 then 0 else 1)).toNat
  (List.range tiles).flatMap (fun tx =>
    (List.range tiles).map (fun ty =>
      let lwx0 := max 0 (step * (tx : ℤ) - edge)
      let rwx := min size (step * ((tx : ℤ) + 1) + edge)
      let lwx := if square && decide (size ≤ rwx) then size - step - edge else lwx0
      let lwy0 := max 0 (step * (ty : ℤ) - edge)
      let rwy := min size (step * ((ty : ℤ) + 1) + edge)
      let lwy := if square && decide (size ≤ rwy) then size - step - edge else lwy0
      ((lwx + start, rwx + start), (lwy + start, rwy + start))))

/-! ## The local enrichment scorer
(`get_adjusted_expected_tile_some_nans`, dotfinder.py lines 418-702) -/

/-- A convolution kernel: an odd square `(2r+1) × (2r+1)` weight matrix,
given by centered weights `w u v` for offsets `u, v ∈ [-r, r]`. -/
structure Kern where
  r : ℕ
  w : ℤ → ℤ → ℚ

/-- Input of `get_adjusted_expected_tile_some_nans`: the tile origin
`(io, jo)`, the tile shape `n × m`, the raw observed counts, the balanced
expected matrix (possibly non-finite), and the two balancing weight vectors
(the `bal_weights = (bal_weight_i, bal_weight_j)` tuple case; a single
vector on a diagonal tile is the special case of equal vectors).
Matrices are queried on `[0,n) × [0,m)`. -/
structure TileInput where
  io : ℤ
  jo : ℤ
  n : ℕ
  m : ℕ
  observed : ℤ → ℤ → ℚ
  expected : ℤ → ℤ → FVal
  bal_weight_i : ℤ → FVal
  bal_weight_j : ℤ → FVal

/-- `O_bal = O_raw * outer(v_bal_i, v_bal_j)` (dotfinder.py line 562). -/
def O_bal (t : TileInput) (i j : ℤ) : FVal :=
  fmul (some (t.observed i j)) (fmul (t.bal_weight_i i) (t.bal_weight_j j))

/-- `O_bal` after NaN-masking the lower triangle relative to the tile's true
genomic origin: `O_bal[tril_indices_from(O_bal, k=(io-jo)-1)] = NaN`
(line 571).  Local entry `(i,j)` is masked exactly when `j - i ≤ (io-jo)-1`,
i.e. when the absolute coordinates satisfy `j + jo < i + io`. -/
def O_bal_masked (t : TileInput) (i j : ℤ) : FVal :=
  if j + t.jo < i + t.io then none else O_bal t i j

/-- `E_bal` after the same lower-triangle NaN mask (line 572). -/
def E_bal_masked (t : TileInput) (i j : ℤ) : FVal :=
  if j + t.jo < i + t.io then none else t.expected i j

/-- `E_raw = E_bal / outer(v_bal_i, v_bal_j)` computed from the masked
`E_bal` (line 576, before zero-filling). -/
def E_raw (t : TileInput) (i j : ℤ) : FVal :=
  fdiv (E_bal_masked t i j) (fmul (t.bal_weight_i i) (t.bal_weight_j j))

/-- `N_bal = isnan(O_bal) | isnan(E_bal)` -- the shared non-finite mask
(line 581). -/
def N_bal (t : TileInput) (i j : ℤ) : Bool :=
  (O_bal_masked t i j).isNone || (E_bal_masked t i j).isNone

/-- `O_bal[N_bal] = 0.0` (line 585): the zero-filled balanced observed. -/
def O_fill (t : TileInput) (i j : ℤ) : ℚ :=
  if N_bal t i j then 0 else (O_bal_masked t i j).getD 0

/-- `E_bal[N_bal] = 0.0` (line 586): the zero-filled balanced expected. -/
def E_fill (t : TileInput) (i j : ℤ) : ℚ :=
  if N_bal t i j then 0 else (E_bal_masked t i j).getD 0

/-- Whether a (local) index pair lies inside the `n × m` tile. -/
def inBounds (t : TileInput) (i j : ℤ) : Bool :=
  decide (0 ≤ i) && decide (i < (t.n : ℤ)) && decide (0 ≤ j) && decide (j < (t.m : ℤ))

/-- A matrix extended beyond the tile by the constant boundary value
(`mode='constant', cval=...` of `scipy.ndimage.convolve`). -/
def padded (t : TileInput) (A : ℤ → ℤ → ℚ) (cval : ℚ) (i j : ℤ) : ℚ :=
  if inBounds t i j then A i j else cval

/-- `scipy.ndimage.convolve(A, kernel, mode='constant', origin=0)` at `(i,j)`
for an odd `(2r+1)²` kernel: `Σ_{u,v ∈ [-r,r]} w u v * A (i-u) (j-v)`
(the kernel is flipped: true convolution).  `A` is already padded. -/
def conv (k : Kern) (A : ℤ → ℤ → ℚ) (i j : ℤ) : ℚ :=
  ((List.range (2 * k.r + 1)).map (fun ui : ℕ =>
    ((List.range (2 * k.r + 1)).map (fun vi : ℕ =>
      k.w ((ui : ℤ) - k.r) ((vi : ℤ) - k.r) *
        A (i - ((ui : ℤ) - k.r)) (j - ((vi : ℤ) - k.r)))).sum)).sum

/-- `KO = convolve(O_bal, kernel, cval=0.0)` (lines 621-625). -/
def KO (t : TileInput) (k : Kern) (i j : ℤ) : ℚ :=
  conv k (padded t (O_fill t) 0) i j

/-- `KE = convolve(E_bal, kernel, cval=0.0)` (lines 628-632). -/
def KE (t : TileInput) (k : Kern) (i j : ℤ) : ℚ :=
  conv k (padded t (E_fill t) 0) i j

/-- `NN = convolve(N_bal.astype(int), (kernel != 0).astype(int), cval=1)`
(lines 637-645): the number of non-finite entries in the kernel's nonzero
footprint, counting everything beyond the tile boundary as non-finite. -/
def NN (t : TileInput) (k : Kern) (i j : ℤ) : ℤ :=
  ((List.range (2 * k.r + 1)).map (fun ui : ℕ =>
    ((List.range (2 * k.r + 1)).map (fun vi : ℕ =>
      (if k.w ((ui : ℤ) - k.r) ((vi : ℤ) - k.r) ≠ 0 then (1 : ℤ) else 0) *
        (if inBounds t (i - ((ui : ℤ) - k.r)) (j - ((vi : ℤ) - k.r)) then
          (if N_bal t (i - ((ui : ℤ) - k.r)) (j - ((vi : ℤ) - k.r)) then 1 else 0)
         else 1))).sum)).sum

/-- `Ek_raw = E_raw * (KO / KE)` (line 654): the locally-adjusted expected
in raw-count units, non-finite when `KE = 0` or `E_raw` is non-finite. -/
def Ek_raw (t : TileInput) (k : Kern) (i j : ℤ) : FVal :=
  fmul (E_raw t i j) (qdiv (KO t k i j) (KE t k i j))

/-- One row of the `peaks_df` DataFrame built by
`get_adjusted_expected_tile_some_nans` (lines 594-676). -/
structure PeakRow where
  bin1_id : ℤ
  bin2_id : ℤ
  la_exp : List (String × FVal)
  la_nnans : List (String × ℤ)
  exp_raw : FVal
  obs_raw : ℚ
deriving DecidableEq

/-- The row of `peaks_df` for local pixel `(i, j)`:
`bin1_id = i + io`, `bin2_id = j + jo`, per-kernel `la_exp.<k>.value` and
`la_exp.<k>.nnans`, `exp.raw` and `obs.raw`. -/
def peak_row (t : TileInput) (kernels : List (String × Kern)) (i j : ℕ) : PeakRow :=
  { bin1_id := (i : ℤ) + t.io
    bin2_id := (j : ℤ) + t.jo
    la_exp := kernels.map (fun nk => (nk.1, Ek_raw t nk.2 i j))
    la_nnans := kernels.map (fun nk => (nk.1, NN t nk.2 i j))
    exp_raw := E_raw t i j
    obs_raw := t.observed i j }

/-- `get_adjusted_expected_tile_some_nans` (lines 418-702): build one row per
tile pixel, then return `peaks_df[~mask_ndx & upper_band]` where `mask_ndx`
flags rows with a non-finite `la_exp.<kernel>.value` for some kernel and
`upper_band` is `bin1_id < bin2_id`. -/
def get_adjusted_expected_tile_some_nans (t : TileInput)
    (kernels : List (String × Kern)) : List PeakRow :=
  ((List.range t.n).flatMap (fun i =>
    (List.range t.m).map (fun j => peak_row t kernels i j))).filter
    (fun row => row.la_exp.all (fun kv => kv.2.isSome) &&
      decide (row.bin1_id < row.bin2_id))

/-! ## Histogram merging (`_sum_hists`, dotfinder.py lines 1133-1150) -/

/-- A per-tile lambda-chunking histogram dictionary: for each kernel name, a
table sending a lambda-bin and an observed raw count to the number of pixels
in that cell.  Entries absent from the underlying DataFrame are the zeros of
this total function (`fill_value=0` semantics). -/
abbrev Hist := String → LamBin → ℕ → ℕ

/-- `_sum_hists(hx, hy)` (lines 1133-1140): per-kernel element-wise addition
of the histogram tables, `hx[k].add(hy[k], fill_value=0)`. -/
def sum_hists (hx hy : Hist) : Hist :=
  fun k lbin obs => hx k lbin obs + hy k lbin obs

/-- Python's `functools.reduce` with no initializer: `none` on an empty
sequence (Python raises TypeError), otherwise a left fold from the head. -/
def python_reduce (f : α → α → α) : List α → Option α
  | [] => none
  | x :: xs => some (xs.foldl f x)

/-- Pointwise sum of a list of histograms (specification device used to
state order-independence of the merge). -/
def hist_total (l : List Hist) : Hist :=
  fun k lbin obs => (l.map (fun h => h k lbin obs)).sum

/-! ## Top-bin check of `scoring_and_histogramming_step`
(dotfinder.py lines 1150-1164) -/

/-- A merged per-kernel histogram DataFrame: the ordered list of lambda-bin
columns, each column carrying its bin label and its vector of counts
(indexed by observed value).  The last list element is the rightmost
`(last_edge, +inf]` bin. -/
abbrev KHist := List (LamBin × List ℕ)

/-- The failure modes of the post-merge check: `topBinNonzero k lbin` models
the `AssertionError` whose message names the offending kernel `k` and the
offending lambda-bin `lbin`; `emptyHist` models the `IndexError` of
`columns[-1]` on an empty DataFrame (never reached on real histograms). -/
inductive HistErr where
  | emptyHist : HistErr
  | topBinNonzero : String → LamBin → HistErr
deriving DecidableEq

/-- The final loop of `scoring_and_histogramming_step` (lines 1153-1164):
for each kernel in order, assert that the rightmost lambda-bin column of the
merged histogram has zero total count (`last_la_exp_vals.sum() == 0`),
naming the kernel and the bin on failure, and then drop that column. -/
def scoring_and_histogramming_check :
    List (String × KHist) → Except HistErr (List (String × KHist))
  | [] => .ok []
  | (k, tbl) :: rest =>
    match tbl.getLast? with
    | none => .error .emptyHist
    | some lastCol =>
      if lastCol.2.sum ≠ 0 then .error (.topBinNonzero k lastCol.1)
      else
        match scoring_and_histogramming_check rest with
        | .error e => .error e
        | .ok r => .ok ((k, tbl.dropLast) :: r)

/-! ## Threshold extraction (`extract_scored_pixels`, dotfinder.py
lines 949-1006) -/

/-- One row of a scored-pixel DataFrame as used by
`extract_scored_pixels`: the raw observed count `obs.raw` and the
locally-adjusted expected `la_exp.<k>.value` per kernel name. -/
structure ScoredRow where
  obs_raw : ℚ
  la_exp : String → ℚ

/-- One iteration of the kernel loop of `extract_scored_pixels`
(lines 987-1004): look up each row's `la_exp.<k>.value` in the
interval-indexed thresholds of kernel `k` (a KeyError, i.e. `none`, when
some value is in no interval), compare `obs.raw > threshold`, and AND the
resulting boolean vector into the accumulated `comply_fdr_list`. -/
def kernel_mask_step (scored : List ScoredRow)
    (thresholds : String → List (LamBin × ℚ))
    (mask : List Bool) (k : String) : Option (List Bool) :=
  (scored.mapM (fun rrow =>
    (ilookup (thresholds k) (rrow.la_exp k)).map
      (fun thr => decide (rrow.obs_raw > thr)))).map
    (fun comply_k => List.zipWith (· && ·) mask comply_k)

/-- `extract_scored_pixels(scored_df, kernels, thresholds, ledges)`
(lines 949-1006): start from an all-ones mask, AND in each kernel's
compliance vector, and return the masked slice of `scored_df`.
`none` models the KeyError raised when a threshold lookup fails. -/
def extract_scored_pixels (scored : List ScoredRow) (kernels : List String)
    (thresholds : String → List (LamBin × ℚ)) : Option (List ScoredRow) :=
  match kernels.foldlM (kernel_mask_step scored thresholds)
      (scored.map (fun _ => true)) with
  | none => none
  | some comply_fdr =>
    some (((scored.zip comply_fdr).filter (fun rb => rb.2)).map (fun rb => rb.1))

/-- The per-row, per-kernel compliance test of `extract_scored_pixels`:
`obs.raw` strictly exceeds the threshold found by interval containment
(false when the lookup fails, a case excluded by the coverage hypothesis). -/
def comply_value (thresholds : String → List (LamBin × ℚ))
    (k : String) (rrow : ScoredRow) : Bool :=
  match ilookup (thresholds k) (rrow.la_exp k) with
  | some thr => decide (rrow.obs_raw > thr)
  | none => false

/-! ## BH q-values (`get_qvals`, dotfinder.py lines 33-74) -/

/-- `porder = np.argsort(pvals)`: the indices `0..n-1` sorted by ascending
p-value (a stable sort; ranks are unique, and for pairwise-distinct
p-values any argsort gives the same order). -/
def porder (pvals : List ℚ) : List ℕ :=
  List.insertionSort (fun a b => pvals.getD a 0 ≤ pvals.getD b 0)
    (List.range pvals.length)

/-- `prank[porder] = arange(1, n+1)`: the 1-based rank of index `i`, i.e.
one plus the position of `i` in `porder`. -/
def prank (pvals : List ℚ) (i : ℕ) : ℕ :=
  (porder pvals).indexOf i + 1

/-- `get_qvals(pvals) = n_obs * pvals / prank`, aligned with the input
order (lines 33-74). -/
def get_qvals (pvals : List ℚ) : List ℚ :=
  (List.range pvals.length).map (fun i =>
    (pvals.length : ℚ) * pvals.getD i 0 / (prank pvals i : ℚ))

/-! ## Final filter (`thresholding_step`, dotfinder.py lines 1398-1503) -/

/-- A cluster-representative (centroid) row with the fields read by the
enrichment/orphan filter of `thresholding_step`. -/
structure CentRow where
  obs_raw : ℚ
  la_exp_lowleft_value : ℚ
  la_exp_donut_value : ℚ
  la_exp_vertical_value : ℚ
  la_exp_horizontal_value : ℚ
  la_exp_lowleft_qval : ℚ
  la_exp_donut_qval : ℚ
  la_exp_vertical_qval : ℚ
  la_exp_horizontal_qval : ℚ
  c_size : ℕ
deriving DecidableEq

def enrichment_factor_1 : ℚ := 15 / 10

def enrichment_factor_2 : ℚ := 175 / 100

def enrichment_factor_3 : ℚ := 2

def FDR_orphan_threshold : ℚ := 2 / 100

/-- The `enrichment_fdr_comply` boolean of `thresholding_step`
(lines 1408-1421), written exactly in the source's order of conjuncts. -/
def enrichment_fdr_comply (c : CentRow) : Bool :=
  decide (c.obs_raw > enrichment_factor_2 * c.la_exp_lowleft_value) &&
  decide (c.obs_raw > enrichment_factor_2 * c.la_exp_donut_value) &&
  decide (c.obs_raw > enrichment_factor_1 * c.la_exp_vertical_value) &&
  decide (c.obs_raw > enrichment_factor_1 * c.la_exp_horizontal_value) &&
  (decide (c.obs_raw > enrichment_factor_3 * c.la_exp_lowleft_value) ||
   decide (c.obs_raw > enrichment_factor_3 * c.la_exp_donut_value)) &&
  (decide (c.c_size > 1) ||
   decide (c.la_exp_lowleft_qval + c.la_exp_donut_qval +
           c.la_exp_vertical_qval + c.la_exp_horizontal_qval ≤ FDR_orphan_threshold))

/-- The row-selection part of `thresholding_step`:
`out = centroids[enrichment_fdr_comply]` (line 1433).  The subsequent
projection `out[columns_for_output]` is modelled at the column level by
`thresholding_step_df` below. -/
def thresholding_step_rows (centroids : List CentRow) : List CentRow :=
  centroids.filter enrichment_fdr_comply

/-! ## Column-level model of `thresholding_step` (for its KeyError
behaviour on missing columns) -/

/-- A pandas DataFrame as an association list of named columns. -/
abbrev PDF := List (String × List ℚ)

def col_obs_raw : String := "obs.raw"
def col_ll_value : String := "la_exp.lowleft.value"
def col_donut_value : String := "la_exp.donut.value"
def col_vertical_value : String := "la_exp.vertical.value"
def col_horizontal_value : String := "la_exp.horizontal.value"
def col_ll_qval : String := "la_exp.lowleft.qval"
def col_donut_qval : String := "la_exp.donut.qval"
def col_vertical_qval : String := "la_exp.vertical.qval"
def col_horizontal_qval : String := "la_exp.horizontal.qval"
def col_c_size : String := "c_size"
def col_factor_balance : String := "factor_balance.lowleft.KerObs"

/-- Column access `df[name]`: the column, or a KeyError naming the missing
column. -/
def getCol (df : PDF) (c : String) : Except String (List ℚ) :=
  match df.lookup c with
  | some column => .ok column
  | none => .error c

/-- `columns_for_output` of `thresholding_step` (lines 1478-1502). -/
def columns_for_output : List String :=
  ["chrom1", "start1", "end1", "chrom2", "start2", "end2",
   "cstart1", "cstart2", "c_label", "c_size", "obs.raw", "exp.raw",
   "la_exp.donut.value", "la_exp.vertical.value",
   "la_exp.horizontal.value", "la_exp.lowleft.value",
   "factor_balance.lowleft.KerObs",
   "la_exp.donut.qval", "la_exp.vertical.qval",
   "la_exp.horizontal.qval", "la_exp.lowleft.qval"]

/-- Keep the entries of a column whose mask bit is set
(row selection `centroids[mask]` applied to one column). -/
def applyMask (mask : List Bool) (column : List ℚ) : List ℚ :=
  ((column.zip mask).filter (fun p => p.2)).map (fun p => p.1)

/-- Projection `df[cols]` onto a list of columns, in order: the projected
DataFrame, or a KeyError naming the first missing column. -/
def getCols (df : PDF) : List String → Except String PDF
  | [] => .ok []
  | c :: cs =>
    match getCol df c with
    | .error e => .error e
    | .ok column =>
      match getCols df cs with
      | .error e => .error e
      | .ok rest => .ok ((c, column) :: rest)

/-- Column-level model of `thresholding_step(centroids)`
(lines 1398-1503): fetch every column read by the boolean filter (in the
order Python evaluates them, with a KeyError on the first missing one),
build the `enrichment_fdr_comply` mask, select the complying rows, and
project onto `columns_for_output` (a KeyError if any output column,
`factor_balance.lowleft.KerObs` included, is missing). -/
def thresholding_step_df (centroids : PDF) : Except String PDF :=
  match getCol centroids col_obs_raw with
  | .error e => .error e
  | .ok obs =>
  match getCol centroids col_ll_value with
  | .error e => .error e
  | .ok ll_val =>
  match getCol centroids col_donut_value with
  | .error e => .error e
  | .ok donut_val =>
  match getCol centroids col_vertical_value with
  | .error e => .error e
  | .ok vert_val =>
  match getCol centroids col_horizontal_value with
  | .error e => .error e
  | .ok horiz_val =>
  match getCol centroids col_c_size with
  | .error e => .error e
  | .ok csize =>
  match getCol centroids col_ll_qval with
  | .error e => .error e
  | .ok ll_q =>
  match getCol centroids col_donut_qval with
  | .error e => .error e
  | .ok donut_q =>
  match getCol centroids col_vertical_qval with
  | .error e => .error e
  | .ok vert_q =>
  match getCol centroids col_horizontal_qval with
  | .error e => .error e
  | .ok horiz_q =>
  let mask := (List.range obs.length).map (fun i =>
    decide (obs.getD i 0 > enrichment_factor_2 * ll_val.getD i 0) &&
    decide (obs.getD i 0 > enrichment_factor_2 * donut_val.getD i 0) &&
    decide (obs.getD i 0 > enrichment_factor_1 * vert_val.getD i 0) &&
    decide (obs.getD i 0 > enrichment_factor_1 * horiz_val.getD i 0) &&
    (decide (obs.getD i 0 > enrichment_factor_3 * ll_val.getD i 0) ||
     decide (obs.getD i 0 > enrichment_factor_3 * donut_val.getD i 0)) &&
    (decide (csize.getD i 0 > 1) ||
     decide (ll_q.getD i 0 + donut_q.getD i 0 + vert_q.getD i 0 + horiz_q.getD i 0 ≤
       FDR_orphan_threshold)))
  let out : PDF := centroids.map (fun p => (p.1, applyMask mask p.2))
  getCols out columns_for_output

/-! ## Concrete inputs used by the closed witness instances -/

/-- A concrete 2×2 tile with trivial weights, a witness input. -/
def tileW : TileInput :=
  { io := 0, jo := 0, n := 2, m := 2
    observed := fun _ _ => 1
    expected := fun _ _ => some 1
    bal_weight_i := fun _ => some 1
    bal_weight_j := fun _ => some 1 }

/-- A 1×1 identity kernel used to witness C2. -/
def kernW : Kern := { r := 0, w := fun _ _ => 1 }

/-- The pixel (0,1) row of the witness tile. -/
def rowW : PeakRow := peak_row tileW [("donut", kernW)] 0 1

/-- A 3×3 off-diagonal tile (origin `(0, 5)`, so no lower-triangle masking
inside the tile) with observed equal to expected, for the C3 witness. -/
def tile3W : TileInput :=
  { io := 0, jo := 5, n := 3, m := 3
    observed := fun _ _ => 2
    expected := fun _ _ => some 2
    bal_weight_i := fun _ => some 1
    bal_weight_j := fun _ => some 1 }

/-- A 3×3 donut-like kernel (zero center, ones around) for the C3 witness. -/
def kern3W : Kern := { r := 1, w := fun u v => if u = 0 ∧ v = 0 then 0 else 1 }

/-- A concrete histogram for the C4 witness. -/
def histA : Hist := fun _ _ _ => 1

/-- A second concrete histogram for the C4 witness. -/
def histB : Hist := fun _ _ _ => 2

/-- A concrete merged histogram for the C5 witness: two lambda bins, the
rightmost `(1, +inf]` bin holding only zero counts. -/
def khistW : KHist := [((none, some 1), [3, 2]), ((some 1, none), [0, 0])]

/-- Thresholds for the C6 witness: `(-inf, 1] ↦ 3` and `(1, +inf] ↦ 5`. -/
def thrW : String → List (LamBin × ℚ) :=
  fun _ => [((none, some 1), 3), ((some 1, none), 5)]

/-- Scored rows for the C6 witness. -/
def scoredW : List ScoredRow :=
  [⟨4, fun _ => 1⟩, ⟨4, fun _ => 2⟩, ⟨10, fun _ => 2⟩]

/-- The example p-value array of C7. -/
def pexW : List ℚ := [1/100, 2/100, 3/100, 1/2]

/-! # Theorems -/

/-! ## C2: returned rows are strictly upper-triangular with finite values -/

/-- C2: every row of the DataFrame returned by
`get_adjusted_expected_tile_some_nans` satisfies `bin1_id < bin2_id`
(strictly above the main diagonal in absolute genomic coordinates), and for
every kernel the stored `la_exp.<kernel>.value` is finite; no row with a
non-finite adjusted expected is ever returned. -/
theorem get_adjusted_expected_rows_upper_finite
    (t : TileInput) (kernels : List (String × Kern)) (row : PeakRow)
    (hrow : row ∈ get_adjusted_expected_tile_some_nans t kernels) :
    row.bin1_id < row.bin2_id ∧ ∀ kv ∈ row.la_exp, kv.2.isSome = true := by
  unfold get_adjusted_expected_tile_some_nans at hrow
  rw [List.mem_filter] at hrow
  obtain ⟨-, hcond⟩ := hrow
  rw [Bool.and_eq_true] at hcond
  obtain ⟨hall, hlt⟩ := hcond
  refine ⟨by simpa using hlt, fun kv hkv => List.all_eq_true.mp hall kv hkv⟩

theorem get_adjusted_expected_rows_upper_finite_witness :
    rowW ∈ get_adjusted_expected_tile_some_nans tileW [("donut", kernW)] ∧
    (rowW.bin1_id < rowW.bin2_id ∧ ∀ kv ∈ rowW.la_exp, kv.2.isSome = true) := by
  have hmem : rowW ∈ get_adjusted_expected_tile_some_nans tileW [("donut", kernW)] := by
    simp [get_adjusted_expected_tile_some_nans, peak_row, rowW, tileW, kernW,
      Ek_raw, KO, KE, conv, padded, O_fill, E_fill, N_bal, O_bal_masked,
      E_bal_masked, O_bal, E_raw, NN, fmul, fdiv, qdiv, inBounds,
      List.range_succ]
  exact ⟨hmem, get_adjusted_expected_rows_upper_finite tileW [("donut", kernW)] rowW hmem⟩

/-! ## C9: boundary tiles in `square=True` mode -/

/-- C9 counterexample: with `start=0, stop=5, step=2, edge=1` and
`square=True`, `square_matrix_tiling` yields a boundary row-span whose right
end reaches the matrix boundary but whose length is `3 = step + edge`,
not `step = 2`: the claim that every boundary span has exact side length
`step` is false. -/
theorem square_matrix_tiling_boundary_counterexample :
    ∃ tile ∈ square_matrix_tiling 0 5 2 1 true,
      tile.1.2 = 5 ∧ ¬ tile.1.2 - tile.1.1 = 2 := by decide

/-- C9 (amended): with `square=True`, every yielded boundary span — a span
whose right end reaches the matrix boundary `stop` — has exact length
`step + edge` (the `step`-sized core plus the one-sided near-boundary
padding), obtained by sliding the near boundary inward to
`size - step - edge` instead of shrinking the span. -/
theorem square_matrix_tiling_square_boundary_spans
    (start stop step edge : ℤ) (tile : (ℤ × ℤ) × (ℤ × ℤ))
    (ht : tile ∈ square_matrix_tiling start stop step edge true) :
    (tile.1.2 = stop → tile.1.2 - tile.1.1 = step + edge) ∧
    (tile.2.2 = stop → tile.2.2 - tile.2.1 = step + edge) := by
  simp only [square_matrix_tiling, List.mem_flatMap, List.mem_map,
    List.mem_range, Bool.true_and] at ht
  obtain ⟨tx, -, ty, -, rfl⟩ := ht
  simp only [decide_eq_true_eq]
  split_ifs with h1 h2 h2 <;>
    refine ⟨fun h => ?_, fun h => ?_⟩ <;> simp only at h ⊢ <;> omega

theorem square_matrix_tiling_square_boundary_spans_witness :
    (((2 : ℤ), (5 : ℤ)), ((2 : ℤ), (5 : ℤ))) ∈ square_matrix_tiling 0 5 2 1 true ∧
    (((((2 : ℤ), (5 : ℤ)), ((2 : ℤ), (5 : ℤ))) : (ℤ × ℤ) × (ℤ × ℤ)).1.2 = 5 →
      ((((2 : ℤ), (5 : ℤ)), ((2 : ℤ), (5 : ℤ))) : (ℤ × ℤ) × (ℤ × ℤ)).1.2 -
        ((((2 : ℤ), (5 : ℤ)), ((2 : ℤ), (5 : ℤ))) : (ℤ × ℤ) × (ℤ × ℤ)).1.1 = 2 + 1) :=
  ⟨by decide,
   (square_matrix_tiling_square_boundary_spans 0 5 2 1 _ (by decide)).1⟩

/-! ## C1: diagonal tiling coverage -/

/-- C1 counterexample: with `start=0, stop=1, bandwidth=1, edge=0` (so
`start ≤ stop`, `bandwidth > 0`, `edge ≥ 0`), the pixel `(0,0)` satisfies
`start ≤ i ≤ j < stop` and `j - i ≤ bandwidth`, yet
`diagonal_matrix_tiling` yields no tiles at all (`tiles = 1`, and the loop
`range(1, tiles)` is empty), so the pixel is covered by no yielded span. -/
theorem diagonal_matrix_tiling_cover_counterexample :
    diagonal_matrix_tiling 0 1 1 0 = [] ∧
    ¬ ∃ p ∈ diagonal_matrix_tiling 0 1 1 0, p.1 ≤ 0 ∧ 0 < p.2 := by decide

/-- Arithmetic core of the C1 coverage proof: a band pixel `(i2, j2)` in
tile-local coordinates is covered by the span of some tile index. -/
theorem diag_cover_exists (b e size i2 j2 : ℕ) (hb : 0 < b) (hsize : b < size)
    (hj : j2 < size) (hband : j2 ≤ i2 + b) :
    ∃ tp, tp < size / b + (if size % b = 0 then 0 else 1) - 1 ∧
      b * (tp + 1 - 1) - e ≤ i2 ∧ j2 < min size (b * (tp + 1 + 1) + e) := by
  have hdm : b * (size / b) + size % b = size := Nat.div_add_mod size b
  have hRlt : size % b < b := Nat.mod_lt _ hb
  have hqm : b * (i2 / b) + i2 % b = i2 := Nat.div_add_mod i2 b
  have hQlt : i2 % b < b := Nat.mod_lt _ hb
  have h2le : 2 ≤ size / b + (if size % b = 0 then 0 else 1) := by
    by_cases h0 : size % b = 0
    · rw [if_pos h0]
      have hD1 : 1 < size / b := by
        have hblt : b * 1 < b * (size / b) := by omega
        exact lt_of_mul_lt_mul_left hblt (Nat.zero_le b)
      omega
    · rw [if_neg h0]
      have hD0 : 0 < size / b := Nat.div_pos (le_of_lt hsize) hb
      omega
  have hcov : size ≤ b * (size / b + (if size % b = 0 then 0 else 1)) := by
    by_cases h0 : size % b = 0
    · rw [if_pos h0, Nat.add_zero]
      omega
    · rw [if_neg h0]
      have hmul : b * (size / b + 1) = b * (size / b) + b := by ring
      omega
  by_cases hcase : i2 / b + 1 ≤ size / b + (if size % b = 0 then 0 else 1) - 1
  · refine ⟨i2 / b, by omega, ?_, ?_⟩
    · simp only [Nat.add_sub_cancel]
      omega
    · have hmul : b * (i2 / b + 1 + 1) = b * (i2 / b) + b + b := by ring
      omega
  · refine ⟨size / b + (if size % b = 0 then 0 else 1) - 2, by omega, ?_, ?_⟩
    · simp only [Nat.add_sub_cancel]
      have hle : b * (size / b + (if size % b = 0 then 0 else 1) - 2) ≤ b * (i2 / b) :=
        mul_le_mul_left' (by omega) b
      omega
    · have heq : size / b + (if size % b = 0 then 0 else 1) - 2 + 1 + 1 =
          size / b + (if size % b = 0 then 0 else 1) := by
        omega
      rw [heq]
      omega

/-- C1 (amended): when additionally `bandwidth < stop - start` (so that the
generator yields at least one tile), every pixel `(i, j)` with
`start ≤ i ≤ j < stop` and `j - i ≤ bandwidth` is contained in some yielded
span `[lw, rw)`, i.e. `lw ≤ i` and `j < rw`. -/
theorem diagonal_matrix_tiling_covers_band
    (start stop bandwidth edge i j : ℕ)
    (hb : 0 < bandwidth) (hsize : bandwidth < stop - start)
    (hi : start ≤ i) (hij : i ≤ j) (hj : j < stop) (hband : j - i ≤ bandwidth) :
    ∃ p ∈ diagonal_matrix_tiling start stop bandwidth edge, p.1 ≤ i ∧ j < p.2 := by
  simp only [diagonal_matrix_tiling, List.mem_map, List.mem_range,
    exists_exists_and_eq_and]
  obtain ⟨tp, htp, h1, h2⟩ :=
    diag_cover_exists bandwidth edge (stop - start) (i - start) (j - start)
      hb hsize (by omega) (by omega)
  exact ⟨tp, htp, by omega, by omega⟩

theorem diagonal_matrix_tiling_covers_band_witness :
    (0 < 2 ∧ 2 < 5 - 0 ∧ 0 ≤ 3 ∧ 3 ≤ 4 ∧ 4 < 5 ∧ 4 - 3 ≤ 2) ∧
    ∃ p ∈ diagonal_matrix_tiling 0 5 2 1, p.1 ≤ 3 ∧ 4 < p.2 :=
  ⟨by decide,
   diagonal_matrix_tiling_covers_band 0 5 2 1 3 4 (by decide) (by decide)
     (by decide) (by decide) (by decide) (by decide)⟩

/-! ## C4: histogram merge is associative, commutative, order-independent -/

/-- Folding `sum_hists` from a seed adds the pointwise total of the list. -/
theorem foldl_sum_hists (x : Hist) (xs : List Hist) :
    xs.foldl sum_hists x = fun k lbin obs => x k lbin obs + hist_total xs k lbin obs := by
  induction xs generalizing x with
  | nil => funext k lbin obs; simp [hist_total]
  | cons y ys ih =>
    rw [List.foldl_cons, ih (sum_hists x y)]
    funext k lbin obs
    simp only [hist_total, sum_hists, List.map_cons, List.sum_cons]
    ring

/-- C4: the per-kernel histogram merge `_sum_hists` (element-wise addition
with zero fill for absent entries) is associative and commutative, and
reducing any multiset of per-tile histograms with it is independent of the
ordering of the sequence. -/
theorem sum_hists_assoc_comm_order_independent :
    (∀ a b c : Hist, sum_hists (sum_hists a b) c = sum_hists a (sum_hists b c)) ∧
    (∀ a b : Hist, sum_hists a b = sum_hists b a) ∧
    (∀ l1 l2 : List Hist, l1.Perm l2 →
      python_reduce sum_hists l1 = python_reduce sum_hists l2) := by
  refine ⟨?_, ?_, ?_⟩
  · intro a b c
    funext k lbin obs
    simp only [sum_hists]
    omega
  · intro a b
    funext k lbin obs
    simp only [sum_hists]
    omega
  · intro l1 l2 hperm
    cases l1 with
    | nil =>
      have h2 : l2 = [] := hperm.symm.eq_nil
      rw [h2]
    | cons x xs =>
      cases l2 with
      | nil => exact absurd hperm.eq_nil (by simp)
      | cons y ys =>
        show some _ = some _
        rw [foldl_sum_hists, foldl_sum_hists]
        congr 1
        have hsum : ∀ k lbin obs,
            ((x :: xs).map (fun h => h k lbin obs)).sum =
              ((y :: ys).map (fun h => h k lbin obs)).sum :=
          fun k lbin obs => (hperm.map (fun h => h k lbin obs)).sum_eq
        funext k lbin obs  
        have := hsum k lbin obs
        simp only [hist_total, List.map_cons, List.sum_cons] at this ⊢
        exact this

theorem sum_hists_assoc_comm_order_independent_witness :
    python_reduce sum_hists [histA, histB] = python_reduce sum_hists [histB, histA] :=
  sum_hists_assoc_comm_order_independent.2.2 [histA, histB] [histB, histA]
    (List.Perm.swap histB histA [])

/-! ## C5: the merged histogram's top bin must be empty -/

/-- C5: the post-merge check of `scoring_and_histogramming_step` fails —
with an error naming the offending kernel and the offending lambda-bin —
if and only if some kernel's rightmost `(last_edge, +inf]` bin of the
merged histogram has a nonzero total count; when every kernel's top bin is
empty it returns the merged histogram with the rightmost bin dropped for
every kernel. -/
theorem scoring_and_histogramming_check_spec
    (hists : List (String × KHist)) (hne : ∀ p ∈ hists, p.2 ≠ []) :
    ((∃ e, scoring_and_histogramming_check hists = .error e) ↔
      ∃ p ∈ hists, ∃ lastCol, p.2.getLast? = some lastCol ∧ lastCol.2.sum ≠ 0) ∧
    ((∀ p ∈ hists, ∀ lastCol, p.2.getLast? = some lastCol → lastCol.2.sum = 0) →
      scoring_and_histogramming_check hists =
        .ok (hists.map (fun p => (p.1, p.2.dropLast)))) ∧
    (∀ k lbin, scoring_and_histogramming_check hists = .error (.topBinNonzero k lbin) →
      ∃ tbl counts, (k, tbl) ∈ hists ∧ tbl.getLast? = some (lbin, counts) ∧
        counts.sum ≠ 0) := by
  induction hists with
  | nil =>
    refine ⟨?_, ?_, ?_⟩ <;> simp [scoring_and_histogramming_check]
  | cons p rest ih =>
    obtain ⟨k0, tbl⟩ := p
    have htbl : tbl ≠ [] := hne (k0, tbl) (by simp)
    obtain ⟨lc, hlc⟩ : ∃ lc, tbl.getLast? = some lc := by
      cases h : tbl.getLast? with
      | none => exact absurd (List.getLast?_eq_none_iff.mp h) htbl
      | some lc => exact ⟨lc, rfl⟩
    have hrest := ih (fun q hq => hne q (List.mem_cons_of_mem _ hq))
    by_cases hs : lc.2.sum = 0
    · have hstep : scoring_and_histogramming_check ((k0, tbl) :: rest) =
          match scoring_and_histogramming_check rest with
          | .error e => .error e
          | .ok r => .ok ((k0, tbl.dropLast) :: r) := by
        simp [scoring_and_histogramming_check, hlc, hs]
      refine ⟨⟨?_, ?_⟩, ?_, ?_⟩
      · rintro ⟨e, he⟩
        rw [hstep] at he
        cases hr : scoring_and_histogramming_check rest with
        | error e2 =>
          obtain ⟨q, hq, lc2, h1, h2⟩ := hrest.1.mp ⟨e2, hr⟩
          exact ⟨q, List.mem_cons_of_mem _ hq, lc2, h1, h2⟩
        | ok r =>
          rw [hr] at he
          simp at he
      · rintro ⟨q, hq, lc2, h1, h2⟩
        rcases List.mem_cons.mp hq with hq0 | hq1
        · exfalso
          apply h2
          rw [hq0] at h1
          simp only at h1
          rw [hlc] at h1
          cases h1
          exact hs
        · obtain ⟨e, he⟩ := hrest.1.mpr ⟨q, hq1, lc2, h1, h2⟩
          refine ⟨e, ?_⟩
          rw [hstep, he]
      · intro hall
        rw [hstep, hrest.2.1 (fun q hq lc2 h1 => hall q (List.mem_cons_of_mem _ hq) lc2 h1)]
        simp
      · intro k lbin he
        rw [hstep] at he
        cases hr : scoring_and_histogramming_check rest with
        | error e2 =>
          rw [hr] at he
          simp only [Except.error.injEq] at he
          obtain ⟨tbl2, counts2, hmem2, h1, h2⟩ := hrest.2.2 k lbin (by rw [hr, he])
          exact ⟨tbl2, counts2, List.mem_cons_of_mem _ hmem2, h1, h2⟩
        | ok r =>
          rw [hr] at he
          simp at he
    · have hstep : scoring_and_histogramming_check ((k0, tbl) :: rest) =
          .error (.topBinNonzero k0 lc.1) := by
        simp [scoring_and_histogramming_check, hlc, hs]
      refine ⟨⟨?_, ?_⟩, ?_, ?_⟩
      · intro _
        exact ⟨(k0, tbl), by simp, lc, hlc, hs⟩
      · intro _
        exact ⟨_, hstep⟩
      · intro hall
        exact absurd (hall (k0, tbl) (by simp) lc hlc) hs
      · intro k lbin he
        rw [hstep] at he
        simp only [Except.error.injEq, HistErr.topBinNonzero.injEq] at he
        obtain ⟨hk, hbin⟩ := he
        refine ⟨tbl, lc.2, ?_, ?_, hs⟩
        · rw [hk]
          simp
        · rw [hlc, ← hbin]

theorem scoring_and_histogramming_check_spec_witness :
    scoring_and_histogramming_check [("donut", khistW)] =
      .ok [("donut", khistW.dropLast)] := by
  have h := (scoring_and_histogramming_check_spec [("donut", khistW)]
      (by simp [khistW])).2.1 (by simp [khistW])
  simpa using h

/-! ## C8: the final enrichment / orphan filter -/

/-- C8: `thresholding_step` keeps a representative (centroid) row if and
only if the observed raw count exceeds 1.75 times the locally-adjusted
expected for both the donut and lowleft kernels, 1.5 times for both the
horizontal and vertical kernels, 2.0 times for at least one of donut or
lowleft, and either the cluster size exceeds 1 or the sum of the four
kernels' q-values is at most 0.02. -/
theorem thresholding_step_keeps_iff (centroids : List CentRow) (c : CentRow) :
    c ∈ thresholding_step_rows centroids ↔
      c ∈ centroids ∧
      (c.obs_raw > 175 / 100 * c.la_exp_donut_value ∧
       c.obs_raw > 175 / 100 * c.la_exp_lowleft_value ∧
       c.obs_raw > 15 / 10 * c.la_exp_horizontal_value ∧
       c.obs_raw > 15 / 10 * c.la_exp_vertical_value ∧
       (c.obs_raw > 2 * c.la_exp_donut_value ∨
        c.obs_raw > 2 * c.la_exp_lowleft_value) ∧
       (1 < c.c_size ∨
        c.la_exp_lowleft_qval + c.la_exp_donut_qval + c.la_exp_vertical_qval +
          c.la_exp_horizontal_qval ≤ 2 / 100)) := by
  rw [thresholding_step_rows, List.mem_filter]
  simp only [enrichment_fdr_comply, enrichment_factor_1, enrichment_factor_2,
    enrichment_factor_3, FDR_orphan_threshold, Bool.and_eq_true, Bool.or_eq_true,
    decide_eq_true_eq]
  tauto

/-! ## C10: `thresholding_step` requires its q-value and factor columns -/

/-- Row-filtering a DataFrame keeps its column names: lookup after the
per-column `applyMask` map is the masked original lookup. -/
theorem lookup_map_applyMask (df : PDF) (mask : List Bool) (c : String) :
    (df.map (fun p => (p.1, applyMask mask p.2))).lookup c =
      (df.lookup c).map (applyMask mask) := by
  induction df with
  | nil => rfl
  | cons p t ih =>
    cases h : (c == p.1) <;> simp [List.lookup, h, ih]

/-- If the projection `getCols` succeeds, every requested column resolves. -/
theorem getCols_ok_forall (df : PDF) (l : List String) (res : PDF)
    (h : getCols df l = .ok res) : ∀ c ∈ l, ∃ column, getCol df c = .ok column := by
  induction l generalizing res with
  | nil => simp
  | cons x t ih =>
    intro c hc
    rw [getCols] at h
    cases hx : getCol df x with
    | error e =>
      rw [hx] at h
      simp at h
    | ok col =>
      rw [hx] at h
      cases hr : getCols df t with
      | error e =>
        rw [hr] at h
        simp at h
      | ok rest =>
        rcases List.mem_cons.mp hc with rfl | hct
        · exact ⟨col, hx⟩
        · exact ih rest hr c hct

/-- C10: `thresholding_step` only succeeds on tables containing the four
q-value columns `la_exp.<k>.qval` and `factor_balance.lowleft.KerObs`; on
any table missing one of them it raises a KeyError instead of returning a
filtered table. -/
theorem thresholding_step_df_requires_columns (df : PDF) (c : String)
    (hc : c ∈ [col_ll_qval, col_donut_qval, col_vertical_qval,
               col_horizontal_qval, col_factor_balance])
    (hmiss : df.lookup c = none) :
    ∃ e, thresholding_step_df df = .error e := by
  by_contra hok
  push_neg at hok
  obtain ⟨res, hres⟩ : ∃ res, thresholding_step_df df = .ok res := by
    cases h : thresholding_step_df df with
    | error e => exact absurd h (hok e)
    | ok r => exact ⟨r, rfl⟩
  rw [thresholding_step_df] at hres
  cases h1 : getCol df col_obs_raw with
  | error e => rw [h1] at hres; simp at hres
  | ok obs =>
  rw [h1] at hres
  cases h2 : getCol df col_ll_value with
  | error e => rw [h2] at hres; simp at hres
  | ok ll_val =>
  rw [h2] at hres
  cases h3 : getCol df col_donut_value with
  | error e => rw [h3] at hres; simp at hres
  | ok donut_val =>
  rw [h3] at hres
  cases h4 : getCol df col_vertical_value with
  | error e => rw [h4] at hres; simp at hres
  | ok vert_val =>
  rw [h4] at hres
  cases h5 : getCol df col_horizontal_value with
  | error e => rw [h5] at hres; simp at hres
  | ok horiz_val =>
  rw [h5] at hres
  cases h6 : getCol df col_c_size with
  | error e => rw [h6] at hres; simp at hres
  | ok csize =>
  rw [h6] at hres
  cases h7 : getCol df col_ll_qval with
  | error e => rw [h7] at hres; simp at hres
  | ok ll_q =>
  rw [h7] at hres
  cases h8 : getCol df col_donut_qval with
  | error e => rw [h8] at hres; simp at hres
  | ok donut_q =>
  rw [h8] at hres
  cases h9 : getCol df col_vertical_qval with
  | error e => rw [h9] at hres; simp at hres
  | ok vert_q =>
  rw [h9] at hres
  cases h10 : getCol df col_horizontal_qval with
  | error e => rw [h10] at hres; simp at hres
  | ok horiz_q =>
  rw [h10] at hres
  simp only at hres
  have hall := getCols_ok_forall _ _ _ hres
  have hcout : c ∈ columns_for_output := by
    simp only [List.mem_cons, List.not_mem_nil, or_false] at hc
    rcases hc with rfl | rfl | rfl | rfl | rfl
    · simp [columns_for_output, col_ll_qval]
    · simp [columns_for_output, col_donut_qval]
    · simp [columns_for_output, col_vertical_qval]
    · simp [columns_for_output, col_horizontal_qval]
    · simp [columns_for_output, col_factor_balance]
  obtain ⟨column, hcol⟩ := hall c hcout
  rw [getCol, lookup_map_applyMask, hmiss] at hcol
  simp at hcol

theorem thresholding_step_df_requires_columns_witness :
    ([] : PDF).lookup col_ll_qval = none ∧
    ∃ e, thresholding_step_df [] = .error e :=
  ⟨rfl, thresholding_step_df_requires_columns [] col_ll_qval (by simp) rfl⟩

/-! ## C6: threshold extraction keeps exactly the strictly-exceeding rows -/

/-- `mapM` over `Option` succeeds pointwise. -/
theorem mapM_option_some {α β : Type} (f : α → Option β) (g : α → β) :
    ∀ (l : List α), (∀ a ∈ l, f a = some (g a)) → l.mapM f = some (l.map g) := by
  intro l
  induction l with
  | nil => intro _; rfl
  | cons x t ih =>
    intro h
    rw [List.mapM_cons, h x (by simp), ih (fun a ha => h a (by simp [ha]))]
    rfl

/-- Keeping the left list of a `zipWith` of equal-length lists. -/
theorem zipWith_fst_same {α : Type} (l1 : List Bool) (l2 : List α)
    (h : l1.length = l2.length) :
    List.zipWith (fun b _ => b) l1 l2 = l1 := by
  induction l1 generalizing l2 with
  | nil => rfl
  | cons x t ih =>
    cases l2 with
    | nil => simp at h
    | cons y s =>
      simp only [List.zipWith_cons_cons, List.cons.injEq, true_and]
      exact ih s (by simpa using h)

/-- Collapsing a `zipWith` whose left argument is a `zipWith` over the same
right list. -/
theorem zipWith_zipWith_left_same {α β γ δ : Type}
    (F : γ → α → δ) (G : β → α → γ) :
    ∀ (l1 : List β) (l2 : List α),
      List.zipWith F (List.zipWith G l1 l2) l2 =
        List.zipWith (fun b a => F (G b a) a) l1 l2 := by
  intro l1
  induction l1 with
  | nil => intro l2; rfl
  | cons x t ih =>
    intro l2
    cases l2 with
    | nil => rfl
    | cons y s => simp [ih]

/-- Selecting by the mask `l.map p` is filtering by `p`. -/
theorem zip_map_filter_map {α : Type} (l : List α) (p : α → Bool) :
    ((l.zip (l.map p)).filter (fun rb => rb.2)).map (fun rb => rb.1) = l.filter p := by
  induction l with
  | nil => rfl
  | cons x t ih =>
    simp only [List.map_cons, List.zip_cons_cons, List.filter_cons]
    cases h : p x <;> simp [h, ih, List.filter_cons]

/-- Invariant of the kernel loop of `extract_scored_pixels`: starting from
any mask of the right length, folding `kernel_mask_step` over the kernels
ANDs in each row's per-kernel compliance bits. -/
theorem foldlM_kernel_mask (scored : List ScoredRow)
    (thresholds : String → List (LamBin × ℚ)) :
    ∀ (ks : List String) (mask : List Bool), mask.length = scored.length →
      (∀ r ∈ scored, ∀ k ∈ ks, (ilookup (thresholds k) (r.la_exp k)).isSome = true) →
      ks.foldlM (kernel_mask_step scored thresholds) mask =
        some (List.zipWith
          (fun b r => b && ks.all (fun k => comply_value thresholds k r)) mask scored) := by
  intro ks
  induction ks with
  | nil =>
    intro mask hlen _
    simp only [List.foldlM_nil, List.all_nil, Bool.and_true]
    rw [zipWith_fst_same mask scored hlen]
    rfl
  | cons k ks ih =>
    intro mask hlen hcov
    rw [List.foldlM_cons]
    have hstep : kernel_mask_step scored thresholds mask k =
        some (List.zipWith (· && ·) mask (scored.map (comply_value thresholds k))) := by
      unfold kernel_mask_step
      rw [mapM_option_some _ (comply_value thresholds k) scored ?_]
      · rfl
      · intro r hr
        have hsme := hcov r hr k (by simp)
        cases hil : ilookup (thresholds k) (r.la_exp k) with
        | none => rw [hil] at hsme; simp at hsme
        | some thr => simp [comply_value, hil]
    rw [hstep]
    show ks.foldlM _ _ = _
    rw [ih (List.zipWith (· && ·) mask (scored.map (comply_value thresholds k)))
      (by simp [hlen]) (fun r hr k2 hk2 => hcov r hr k2 (by simp [hk2]))]
    rw [List.zipWith_map_right, zipWith_zipWith_left_same]
    have hfun : (fun (b : Bool) (r : ScoredRow) =>
        (b && comply_value thresholds k r) && ks.all (fun k2 => comply_value thresholds k2 r)) =
        (fun (b : Bool) (r : ScoredRow) =>
          b && (k :: ks).all (fun k2 => comply_value thresholds k2 r)) := by
      funext b r
      simp [List.all_cons, Bool.and_assoc]
    rw [hfun]

/-- C6: `extract_scored_pixels` returns exactly those rows of `scored_df`
whose observed raw count strictly exceeds, for every kernel, the threshold
found by interval containment of `la_exp.<k>.value` in the
interval-indexed `thresholds[k]`; a row failing the strict inequality for
any single kernel is excluded.  (The hypothesis says every lookup lands in
some interval — otherwise the Python code raises a KeyError, modelled as
`none`.) -/
theorem extract_scored_pixels_spec (scored : List ScoredRow) (kernels : List String)
    (thresholds : String → List (LamBin × ℚ))
    (hcov : ∀ r ∈ scored, ∀ k ∈ kernels,
      (ilookup (thresholds k) (r.la_exp k)).isSome = true) :
    extract_scored_pixels scored kernels thresholds =
      some (scored.filter (fun r => kernels.all (fun k => comply_value thresholds k r))) := by
  unfold extract_scored_pixels
  rw [foldlM_kernel_mask scored thresholds kernels (scored.map fun _ => true)
    (by simp) hcov]
  rw [List.zipWith_map_left]
  have hfun : (fun (_ : ScoredRow) (r : ScoredRow) =>
      true && kernels.all (fun k => comply_value thresholds k r)) =
      (fun (_ : ScoredRow) (r : ScoredRow) =>
        kernels.all (fun k => comply_value thresholds k r)) := by
    funext a r
    simp
  rw [hfun, List.zipWith_same]
  show some (((scored.zip
      (scored.map fun a => kernels.all fun k => comply_value thresholds k a)).filter
      (fun rb => rb.2)).map (fun rb => rb.1)) = _
  rw [zip_map_filter_map]

theorem extract_scored_pixels_spec_witness :
    extract_scored_pixels scoredW ["donut"] thrW =
      some (scoredW.filter (fun r =>
        (["donut"]).all (fun k => comply_value thrW k r))) :=
  extract_scored_pixels_spec scoredW ["donut"] thrW
    (by simp [scoredW, thrW, ilookup, memInterval])

/-! ## C7: BH q-values -/

/-- `porder` is a permutation of the index range. -/
theorem porder_perm (pvals : List ℚ) :
    (porder pvals).Perm (List.range pvals.length) :=
  List.perm_insertionSort _ _

/-- `porder` is sorted by ascending p-value. -/
theorem porder_sorted (pvals : List ℚ) :
    (porder pvals).Sorted (fun a b => pvals.getD a 0 ≤ pvals.getD b 0) := by
  haveI : IsTotal ℕ (fun a b => pvals.getD a 0 ≤ pvals.getD b 0) :=
    ⟨fun a b => le_total _ _⟩
  haveI : IsTrans ℕ (fun a b => pvals.getD a 0 ≤ pvals.getD b 0) :=
    ⟨fun a b c hab hbc => le_trans hab hbc⟩
  exact List.sorted_insertionSort _ _

/-- For pairwise-distinct p-values, the position of index `i` in the
argsort order equals the number of indices with a strictly smaller
p-value: the 0-based ascending rank. -/
theorem indexOf_porder (pvals : List ℚ)
    (hdist : ∀ a b, a < pvals.length → b < pvals.length → a ≠ b →
      pvals.getD a 0 ≠ pvals.getD b 0)
    (i : ℕ) (hi : i < pvals.length) :
    (porder pvals).indexOf i =
      ((List.range pvals.length).filter
        (fun j => decide (pvals.getD j 0 < pvals.getD i 0))).length := by
  set L := porder pvals with hL
  have hperm : L.Perm (List.range pvals.length) := porder_perm pvals
  have hnodup : L.Nodup := hperm.nodup_iff.mpr (List.nodup_range _)
  have hmemL : ∀ a ∈ L, a < pvals.length :=
    fun a ha => List.mem_range.mp (hperm.mem_iff.mp ha)
  have hiL : i ∈ L := hperm.mem_iff.mpr (List.mem_range.mpr hi)
  have hpos : L.indexOf i < L.length := List.indexOf_lt_length.mpr hiL
  have hdropeq : L.drop (L.indexOf i) = i :: L.drop (L.indexOf i + 1) := by
    rw [List.drop_eq_getElem_cons hpos]
    congr 1
    exact List.getElem_indexOf hpos
  have hLsplit : L.take (L.indexOf i) ++ i :: L.drop (L.indexOf i + 1) = L := by
    rw [← hdropeq, List.take_append_drop]
  have hsorted : (L.take (L.indexOf i) ++ i :: L.drop (L.indexOf i + 1)).Pairwise
      (fun a b => pvals.getD a 0 ≤ pvals.getD b 0) := by
    rw [hLsplit]
    exact porder_sorted pvals
  obtain ⟨hpw1, hpw2, hrel⟩ := List.pairwise_append.mp hsorted
  have hnodup2 : (L.take (L.indexOf i) ++ i :: L.drop (L.indexOf i + 1)).Nodup := by
    rw [hLsplit]
    exact hnodup
  have hinot : i ∉ L.take (L.indexOf i) := by
    intro hmem
    exact (List.nodup_append.mp hnodup2).2.2 hmem (by simp)
  have hbefore : ∀ a ∈ L.take (L.indexOf i),
      decide (pvals.getD a 0 < pvals.getD i 0) = true := by
    intro a ha
    have haL : a ∈ L := List.mem_of_mem_take ha
    have hle : pvals.getD a 0 ≤ pvals.getD i 0 := hrel a ha i (by simp)
    have hne : a ≠ i := fun heq => hinot (heq ▸ ha)
    have hiff : pvals.getD a 0 ≠ pvals.getD i 0 :=
      hdist a i (hmemL a haL) hi hne
    simp only [decide_eq_true_eq]
    exact lt_of_le_of_ne hle hiff
  have hafter : ∀ a ∈ L.drop (L.indexOf i + 1),
      ¬ decide (pvals.getD a 0 < pvals.getD i 0) = true := by
    intro a ha
    have hge : pvals.getD i 0 ≤ pvals.getD a 0 := (List.pairwise_cons.mp hpw2).1 a ha
    simp only [decide_eq_true_eq, not_lt]
    exact hge
  have h1 : (L.take (L.indexOf i)).countP
      (fun j => decide (pvals.getD j 0 < pvals.getD i 0)) = L.indexOf i := by
    rw [List.countP_eq_length.mpr hbefore, List.length_take]
    exact min_eq_left (le_of_lt hpos)
  have h2 : (i :: L.drop (L.indexOf i + 1)).countP
      (fun j => decide (pvals.getD j 0 < pvals.getD i 0)) = 0 := by
    rw [List.countP_cons]
    have hPi : (decide (pvals.getD i 0 < pvals.getD i 0)) = false := by simp
    rw [List.countP_eq_zero.mpr hafter]
    simp [hPi]
  have hcount : L.countP (fun j => decide (pvals.getD j 0 < pvals.getD i 0)) =
      L.indexOf i := by
    conv_lhs => rw [← hLsplit]
    rw [List.countP_append, h1, h2]
    omega
  have htransfer := hperm.countP_eq (fun j => decide (pvals.getD j 0 < pvals.getD i 0))
  rw [hcount] at htransfer
  rw [htransfer, List.countP_eq_length_filter]

/-- C7: for pairwise-distinct p-values, `get_qvals` returns an array
aligned with the input order whose `i`-th entry is
`p_i * N / rank_i` with `rank_i` the 1-based ascending rank of `p_i`
among all `N`; in particular `get_qvals [0.01, 0.02, 0.03, 0.5]` is
`[0.04, 0.04, 0.04, 0.5]`. -/
theorem get_qvals_spec :
    (∀ (pvals : List ℚ),
      (∀ a b, a < pvals.length → b < pvals.length → a ≠ b →
        pvals.getD a 0 ≠ pvals.getD b 0) →
      (get_qvals pvals).length = pvals.length ∧
      ∀ i, i < pvals.length →
        (get_qvals pvals).getD i 0 =
          (pvals.length : ℚ) * pvals.getD i 0 /
            (1 + (((List.range pvals.length).filter
              (fun j => decide (pvals.getD j 0 < pvals.getD i 0))).length : ℚ))) ∧
    get_qvals [1/100, 2/100, 3/100, 1/2] = [4/100, 4/100, 4/100, 1/2] := by
  constructor
  · intro pvals hdist
    constructor
    · simp [get_qvals]
    · intro i hi
      have hq : (get_qvals pvals).getD i 0 =
          (pvals.length : ℚ) * pvals.getD i 0 / ((prank pvals i : ℕ) : ℚ) := by
        unfold get_qvals
        rw [List.getD_eq_getElem?_getD, List.getElem?_map, List.getElem?_range hi]
        simp
      rw [hq, prank, indexOf_porder pvals hdist i hi]
      push_cast
      ring
  · norm_num [get_qvals, prank, porder, List.insertionSort, List.orderedInsert,
      List.range_succ]

theorem get_qvals_spec_witness :
    (get_qvals pexW).getD 0 0 =
      ((pexW.length : ℚ) * pexW.getD 0 0 /
        (1 + (((List.range pexW.length).filter
          (fun j => decide (pexW.getD j 0 < pexW.getD 0 0))).length : ℚ))) :=
  (get_qvals_spec.1 pexW (by
    intro a b ha hb hne
    simp only [pexW, List.length_cons, List.length_nil] at ha hb
    interval_cases a <;> interval_cases b <;> simp_all [pexW] <;> norm_num)).2 0
    (by simp [pexW])

/-! ## C3: the adjusted expected reduces to the global expected when
observed equals expected on the kernel footprint -/

/-- C3: for a kernel `k` and a pixel `(i, j)`, if the balanced observed
matrix equals the balanced expected matrix at every in-tile position of
`k`'s footprint around the pixel, with no NaNs there, and the convolved
expected `KE` is nonzero, then the locally-adjusted expected
`Ek_raw = E_raw * (KO / KE)` equals exactly the raw global expected
`E_raw`: the formula is scale-covariant. -/
theorem adjusted_expected_identity_on_footprint
    (t : TileInput) (k : Kern) (i j : ℤ)
    (hfoot : ∀ ui ∈ List.range (2 * k.r + 1), ∀ vi ∈ List.range (2 * k.r + 1),
      k.w ((ui : ℤ) - k.r) ((vi : ℤ) - k.r) ≠ 0 →
      inBounds t (i - ((ui : ℤ) - k.r)) (j - ((vi : ℤ) - k.r)) = true →
      (N_bal t (i - ((ui : ℤ) - k.r)) (j - ((vi : ℤ) - k.r)) = false ∧
       O_bal_masked t (i - ((ui : ℤ) - k.r)) (j - ((vi : ℤ) - k.r)) =
         E_bal_masked t (i - ((ui : ℤ) - k.r)) (j - ((vi : ℤ) - k.r))))
    (hKE : KE t k i j ≠ 0) :
    Ek_raw t k i j = E_raw t i j := by
  have hKOKE : KO t k i j = KE t k i j := by
    unfold KO KE conv
    refine congrArg List.sum (List.map_congr_left ?_)
    intro ui hui
    refine congrArg List.sum (List.map_congr_left ?_)
    intro vi hvi
    by_cases hw : k.w ((ui : ℤ) - k.r) ((vi : ℤ) - k.r) = 0
    · rw [hw]
      ring
    · refine congrArg (fun x => k.w ((ui : ℤ) - k.r) ((vi : ℤ) - k.r) * x) ?_
      unfold padded
      by_cases hib : inBounds t (i - ((ui : ℤ) - k.r)) (j - ((vi : ℤ) - k.r)) = true
      · rw [if_pos hib, if_pos hib]
        obtain ⟨hnb, hoe⟩ := hfoot ui hui vi hvi hw hib
        unfold O_fill E_fill
        rw [hnb, hoe]
      · rw [if_neg hib, if_neg hib]
  unfold Ek_raw qdiv
  rw [hKOKE, if_neg hKE, div_self hKE]
  cases hE : E_raw t i j with
  | none => rfl
  | some a => simp [fmul]

theorem adjusted_expected_identity_on_footprint_witness :
    KE tile3W kern3W 1 1 ≠ 0 ∧ Ek_raw tile3W kern3W 1 1 = E_raw tile3W 1 1 := by
  have hKE : KE tile3W kern3W 1 1 ≠ 0 := by
    norm_num [KE, conv, padded, E_fill, N_bal, O_bal_masked, E_bal_masked,
      O_bal, fmul, inBounds, tile3W, kern3W, List.range_succ,
      Option.some_ne_none, Option.getD_some, Option.isNone]
  refine ⟨hKE, adjusted_expected_identity_on_footprint tile3W kern3W 1 1 ?_ hKE⟩
  intro ui hui vi hvi hw hib
  simp only [List.mem_range] at hui hvi
  simp only [inBounds, tile3W, Bool.and_eq_true, decide_eq_true_eq] at hib
  constructor
  · simp only [N_bal, O_bal_masked, E_bal_masked, O_bal, fmul, tile3W]
    rw [if_neg (by omega), if_neg (by omega)]
    simp
  · simp only [O_bal_masked, E_bal_masked, O_bal, fmul, tile3W]
    rw [if_neg (by omega), if_neg (by omega)]
    norm_num
